import Mathlib

/-!
Shallow embedding of `cot_fetch.py`: a single-pass pipeline that fetches
year-stamped ZIP archives of COT report data, extracts a tabular member,
resolves the report-date column, filters to the rows of the maximum
(latest) report date, and writes that subset to four output files.

Dates are modelled as year/month/day triples ordered lexicographically
(mirroring the total order on pandas timestamps); cells are `Option String`
(with `none` standing for NaN/NaT); tables are a column-name list plus a
list of rows; filesystem writes are modelled as an explicit effect trace.
-/

namespace CotFetch

/-- Calendar date (year, month, day), the value `pd.to_datetime` produces
for one cell; ordering is lexicographic, matching timestamp order. -/
structure Date where
  year : Nat
  month : Nat
  day : Nat
deriving DecidableEq, Repr

/-- Lexicographic order on dates, the order pandas uses on timestamps. -/
def Date.le (a b : Date) : Prop :=
  a.year < b.year ∨
    (a.year = b.year ∧
      (a.month < b.month ∨ (a.month = b.month ∧ a.day ≤ b.day)))

instance (a b : Date) : Decidable (a.le b) := by
  unfold Date.le; exact inferInstance

theorem Date.le_refl (a : Date) : a.le a := by
  unfold Date.le; omega

theorem Date.le_trans {a b c : Date} (h1 : a.le b) (h2 : b.le c) : a.le c := by
  unfold Date.le at *; omega

theorem Date.le_total (a b : Date) : a.le b ∨ b.le a := by
  unfold Date.le; omega

/-- Binary maximum of two dates. -/
def maxDate (a b : Date) : Date := if a.le b then b else a

theorem maxDate_left (a b : Date) : a.le (maxDate a b) := by
  unfold maxDate
  by_cases h : a.le b
  · simp [h]
  · simpa [h] using Date.le_refl a

theorem maxDate_right (a b : Date) : b.le (maxDate a b) := by
  unfold maxDate
  by_cases h : a.le b
  · simpa [h] using Date.le_refl b
  · rcases Date.le_total a b with h1 | h1
    · exact absurd h1 h
    · simpa [h]

theorem maxDate_cases (a b : Date) : maxDate a b = a ∨ maxDate a b = b := by
  unfold maxDate
  by_cases h : a.le b <;> simp [h]

/-- Embedding of `pandas.Series.max` on a series of dates with missing
values: NaT entries are skipped, and the maximum of an all-NaT (or empty)
series is NaT (`none`). -/
def seriesMax : List (Option Date) → Option Date
  | [] => none
  | none :: rest => seriesMax rest
  | some d :: rest =>
    match seriesMax rest with
    | none => some d
    | some m => some (maxDate d m)

theorem seriesMax_eq_none_iff (ds : List (Option Date)) :
    seriesMax ds = none ↔ ∀ x ∈ ds, x = none := by
  induction ds with
  | nil => simp [seriesMax]
  | cons h t ih =>
    cases h with
    | none => simpa [seriesMax] using ih
    | some d =>
      simp only [seriesMax]
      cases hmax : seriesMax t with
      | none => simp
      | some m => simp

theorem seriesMax_mem {ds : List (Option Date)} {m : Date}
    (h : seriesMax ds = some m) : some m ∈ ds := by
  induction ds with
  | nil => simp [seriesMax] at h
  | cons x t ih =>
    cases x with
    | none =>
      simp only [seriesMax] at h
      exact List.mem_cons_of_mem _ (ih h)
    | some d =>
      simp only [seriesMax] at h
      cases hmax : seriesMax t with
      | none => rw [hmax] at h; simp at h; simp [h]
      | some m2 =>
        rw [hmax] at h
        simp only [Option.some.injEq] at h
        rcases maxDate_cases d m2 with hc | hc
        · rw [hc] at h; simp [h]
        · rw [hc] at h; subst h
          exact List.mem_cons_of_mem _ (ih hmax)

theorem seriesMax_isMax {ds : List (Option Date)} {m d : Date}
    (hmax : seriesMax ds = some m) (hd : some d ∈ ds) : d.le m := by
  induction ds generalizing m with
  | nil => simp at hd
  | cons x t ih =>
    cases x with
    | none =>
      simp only [seriesMax] at hmax
      rcases List.mem_cons.mp hd with h | h
      · exact absurd h (by simp)
      · exact ih hmax h
    | some d0 =>
      simp only [seriesMax] at hmax
      cases ht : seriesMax t with
      | none =>
        rw [ht] at hmax
        simp only [Option.some.injEq] at hmax
        subst hmax
        rcases List.mem_cons.mp hd with h | h
        · have hdd : d = d0 := by simpa using h
          subst hdd; exact Date.le_refl d
        · have hnone := (seriesMax_eq_none_iff t).mp ht _ h
          simp at hnone
      | some m2 =>
        rw [ht] at hmax
        simp only [Option.some.injEq] at hmax
        subst hmax
        rcases List.mem_cons.mp hd with h | h
        · have hdd : d = d0 := by simpa using h
          subst hdd; exact maxDate_left d m2
        · exact Date.le_trans (ih ht h) (maxDate_right d0 m2)

/-- Error message raised when every date in the resolved column is NaT
(`raise RuntimeError` at the latest-week selection step). -/
def allNaTMsg : String := "All report dates are NaT; cannot proceed."

/-- Embedding of the latest-week selection step of `main`:
`dates = pd.to_datetime(df_all[date_col], errors="coerce")`,
`latest_date = dates.max()`, fail when `latest_date` is NaT, else
`latest_week = df_all.loc[dates == latest_date]` (a NaT entry never
compares equal to `latest_date`). `parseR` gives each row's parsed date. -/
def selectLatestWeek {ρ : Type} (rows : List ρ) (parseR : ρ → Option Date) :
    Except String (List ρ) :=
  match seriesMax (rows.map parseR) with
  | none => Except.error allNaTMsg
  | some m => Except.ok (rows.filter (fun r => decide (parseR r = some m)))

/-- Embedding of the regex character class test of
`re.sub(r"[^0-9a-z]+", "", ...)`: a character is kept when it is an ASCII
digit or a lowercase ASCII letter. -/
def isKeptChar (c : Char) : Bool :=
  decide (('0' : Char) ≤ c ∧ c ≤ ('9' : Char)) ||
    decide (('a' : Char) ≤ c ∧ c ≤ ('z' : Char))

/-- Character list of `s.lower()`: Python `str.lower` lowercases the
string character by character. -/
def lowerChars (s : String) : List Char :=
  s.toList.map Char.toLower

/-- Embedding of `norm` in `find_date_col`:
`re.sub(r"[^0-9a-z]+", "", s.lower())` — lowercase, then drop every
character that is not a digit or lowercase letter. -/
def norm (s : String) : String :=
  String.mk ((lowerChars s).filter isKeptChar)

/-- Lookup in the dict comprehension vcmap = norm(c) mapped to c for each
column c. Python dicts keep the last value written for a key, so the lookup
returns the last column whose normalized name equals the key. -/
def cmapLookup (cols : List String) (k : String) : Option String :=
  cols.reverse.find? (fun c => norm c == k)

/-- The prioritized candidate names of `find_date_col`. -/
def candidates : List String :=
  ["Report_Date_as_YYYY-MM-DD", "Report_Date_as_YYYY_MM_DD",
    "As_of_Date_In_Form_YYMMDD"]

/-- Contiguous-substring test on character lists, the meaning of
the Python `needle in hay` test on strings. -/
def listHasSub (needle : List Char) : List Char → Bool
  | [] => needle.isEmpty
  | c :: t => needle.isPrefixOf (c :: t) || listHasSub needle t

/-- Fallback predicate of `find_date_col`:
both "report" and "date" occur in the lowercased column name. -/
def reportDateFallback (c : String) : Bool :=
  listHasSub "report".toList (lowerChars c) &&
    listHasSub "date".toList (lowerChars c)

/-- Error message of `find_date_col` when no column matches. -/
def noDateColMsg : String := "Could not locate a report date column."

/-- Embedding of `find_date_col`: try each candidate in priority order
against the normalized-name dict; if none matches, scan the columns in
order for one containing both "report" and "date" (lowercased); else fail. -/
def find_date_col (cols : List String) : Except String String :=
  match candidates.findSome? (fun cand => cmapLookup cols (norm cand)) with
  | some c => Except.ok c
  | none =>
    match cols.find? reportDateFallback with
    | some c => Except.ok c
    | none => Except.error noDateColMsg

/-- Error message of `fetch_year` on an archive with no entries. -/
def emptyZipMsg : String := "Zip archive empty."

/-- Member-name predicate of `fetch_year`:
`n.lower().endswith((".txt", ".csv"))`. -/
def isTabularName (n : String) : Bool :=
  ".txt".toList.isSuffixOf (lowerChars n) ||
    ".csv".toList.isSuffixOf (lowerChars n)

/-- Embedding of the member selection of `fetch_year`: fail if the
namelist is empty, else pick the first name (in archive order) ending in a
recognized tabular extension, else the first name. -/
def selectMember : List String → Except String String
  | [] => Except.error emptyZipMsg
  | n0 :: rest =>
    Except.ok (((n0 :: rest).find? isTabularName).getD n0)

/-- A ZIP archive, as the ordered list of its entries (name, raw bytes). -/
abbrev ZipArchive : Type := List (String × List Nat)

/-- Embedding of the archive-reading part of `fetch_year`: select a member
name from the namelist, then read the bytes of the entry that
`zf.open(member)` resolves the name to. CPython resolves a string member
through the `NameToInfo` dict, which is filled entry by entry over the
central directory so that a duplicated name keeps its last assignment:
the bytes read are those of the last entry in archive order bearing the
selected name. -/
def readArchive (entries : ZipArchive) : Except String (List Nat) :=
  match selectMember (entries.map Prod.fst) with
  | Except.error e => Except.error e
  | Except.ok m =>
    match entries.reverse.find? (fun p => p.1 == m) with
    | some p => Except.ok p.2
    | none => Except.error "member not found"

/-- A cell of a loaded table; `none` models a NaN (missing value). -/
abbrev Cell : Type := Option String

/-- A row: the cell values, aligned with the table's column list. -/
abbrev Row : Type := List Cell

/-- An in-memory table (`pd.DataFrame`): ordered column names plus rows. -/
structure Table where
  cols : List String
  rows : List Row
deriving DecidableEq, Repr

/-- First-appearance deduplication of a column-name list, the order
`pd.concat(..., join="outer", sort=False)` gives the union of columns. -/
def dedupColsAux (seen : List String) : List String → List String
  | [] => []
  | c :: t =>
    if c ∈ seen then dedupColsAux seen t
    else c :: dedupColsAux (c :: seen) t

/-- Union of the frames' columns in order of first appearance. -/
def unionCols (frames : List Table) : List String :=
  dedupColsAux [] (frames.flatMap Table.cols)

/-- Reindex one row from its frame's columns to the union columns,
filling columns the frame lacks with NaN. -/
def reindexRow (oldCols newCols : List String) (row : Row) : Row :=
  newCols.map (fun c =>
    match List.indexOf? c oldCols with
    | some i => row.getD i none
    | none => none)

/-- Embedding of `pd.concat(frames, ignore_index=True)`: union the
columns in order of first appearance and stack the rows in frame order,
reindexing each row to the union columns. -/
def concatTables (frames : List Table) : Table :=
  { cols := unionCols frames
  , rows := (frames.map (fun f => f.rows.map (reindexRow f.cols (unionCols frames)))).flatten }

/-- Value of `df_all[date_col]` at one row: the cell under the named
column (NaN when the column is absent, which resolution rules out). -/
def getCell (cols : List String) (colName : String) (row : Row) : Cell :=
  match List.indexOf? colName cols with
  | some i => row.getD i none
  | none => none

/-- Per-cell behaviour of `pd.to_datetime(..., errors="coerce")`: NaN
parses to NaT, and a string cell parses through the supplied parser
(which yields `none` for an unparsable value, never an error). -/
def parseCellDate (toDate : String → Option Date) : Cell → Option Date
  | none => none
  | some s => toDate s

/-- Embedding of Python `range(n, -1, -1)`: the list `[n, n-1, ..., 0]`. -/
def rangeDown : Nat → List Nat
  | 0 => [0]
  | n + 1 => (n + 1) :: rangeDown n

/-- Embedding of `years = [ny_now.year - i for i in range(YEARS_BACK, -1, -1)]`. -/
def yearsList (y : Int) (n : Nat) : List Int :=
  (rangeDown n).map (fun i => y - Int.ofNat i)

/-- Embedding of `fetch_year` past the HTTP fetch: read the selected
archive member's bytes and parse them with
`read_csv_keep_schema` (the pandas CSV parser, taken as a parameter). -/
def fetch_year (entries : ZipArchive) (read_csv : List Nat → Table) :
    Except String Table :=
  match readArchive entries with
  | Except.error e => Except.error e
  | Except.ok b => Except.ok (read_csv b)

/-- Output format of one write call. -/
inductive Fmt
  | csv
  | parquet
deriving DecidableEq, Repr

/-- One filesystem effect of the writer step: `Path.mkdir(parents=True,
exist_ok=True)` or a full-overwrite file write (`to_csv` / `to_parquet`
open the target with mode "w"/"wb"). Paths are segment lists rooted at the
output directory. -/
inductive FsEffect
  | mkdirP (path : List String)
  | writeFile (path : List String) (fmt : Fmt) (content : Table)
deriving DecidableEq, Repr

/-- Zero-pad a number to a width, as `strftime` does for %Y, %m, %d. -/
def padZeros (w n : Nat) : String :=
  String.mk (List.replicate (w - (toString n).length) '0') ++ toString n

/-- Embedding of `latest_date.strftime("%Y-%m-%d")`. -/
def dateStamp (d : Date) : String :=
  padZeros 4 d.year ++ "-" ++ padZeros 2 d.month ++ "-" ++ padZeros 2 d.day

/-- Embedding of `pathlib.PurePath.with_suffix`: drop the existing
extension (the part from the last dot of the name onward, when that dot is
neither the first nor past the last character) and append the new one. -/
def withSuffix (name suf : String) : String :=
  match (name.toList.reverse.findIdx? (fun c => c == '.')) with
  | some j =>
    if 0 < name.toList.length - 1 - j ∧
        name.toList.length - 1 - j < name.toList.length - 1 then
      String.mk (name.toList.take (name.toList.length - 1 - j)) ++ suf
    else name ++ suf
  | none => name ++ suf

/-- The `WRITE_PARQUET` module constant. -/
def WRITE_PARQUET : Bool := true

/-- Effects of the writer step of `main`, in program order: make the year
directory, write the date-stamped CSV (and Parquet when enabled), then
write the "latest" CSV (and Parquet when enabled), all with the same
filtered subset. -/
def writerEffects (outDir : String) (latest : Date) (latest_week : Table) :
    List FsEffect :=
  let yearDir : List String := [outDir, toString latest.year]
  let histBase := "cot_disagg_fut_" ++ dateStamp latest
  let latestBase := "cot_disagg_fut_latest_" ++ toString latest.year
  [FsEffect.mkdirP yearDir,
    FsEffect.writeFile (yearDir ++ [withSuffix histBase ".csv"]) Fmt.csv latest_week]
  ++ (if WRITE_PARQUET then
        [FsEffect.writeFile (yearDir ++ [withSuffix histBase ".parquet"]) Fmt.parquet latest_week]
      else [])
  ++ [FsEffect.writeFile (yearDir ++ [withSuffix latestBase ".csv"]) Fmt.csv latest_week]
  ++ (if WRITE_PARQUET then
        [FsEffect.writeFile (yearDir ++ [withSuffix latestBase ".parquet"]) Fmt.parquet latest_week]
      else [])

/-- Embedding of `main` (after clock resolution, with the HTTP layer
summarized by `archives`, pandas CSV parsing by `read_csv`, and per-string
date parsing by `toDate`): fetch each year in list order, concatenate,
resolve the date column, parse it, fail when all dates are NaT, filter to
the maximum date, then emit the writer effects. The first component is the
trace of filesystem effects in program order; every `raise` in the source
occurs before the first effect, which the trace reflects. -/
def mainRun (outDir : String) (yearsBack : Nat) (nyYear : Int)
    (archives : Int → ZipArchive) (read_csv : List Nat → Table)
    (toDate : String → Option Date) : List FsEffect × Except String Unit :=
  match (yearsList nyYear yearsBack).mapM
      (fun y => fetch_year (archives y) read_csv) with
  | Except.error e => ([], Except.error e)
  | Except.ok frames =>
    match find_date_col (concatTables frames).cols with
    | Except.error e => ([], Except.error e)
    | Except.ok date_col =>
      match seriesMax ((concatTables frames).rows.map
          (fun r => parseCellDate toDate (getCell (concatTables frames).cols date_col r))) with
      | none => ([], Except.error allNaTMsg)
      | some latest =>
        (writerEffects outDir latest
          { cols := (concatTables frames).cols
          , rows := (concatTables frames).rows.filter
              (fun r => decide (parseCellDate toDate
                (getCell (concatTables frames).cols date_col r) = some latest)) },
          Except.ok ())

/-- Outcome of one `requests.get` call: a response carrying an HTTP
status code and body, or a raised non-HTTP exception (transport error). -/
inductive AttemptOutcome
  | resp (status : Nat) (content : List Nat)
  | exc (e : String)

/-- Result of `http_get_bytes` under the tenacity decorator: the body on
success, the raised `HttpError` (status and url), or an untouched
non-HTTP exception. -/
inductive FetchResult
  | ok (content : List Nat)
  | httpError (status : Nat) (url : String)
  | otherExc (e : String)
deriving DecidableEq, Repr

/-- Body of `http_get_bytes`: raise `HttpError` iff the status code is at
least 400, else return the content. -/
def oneAttempt (url : String) : AttemptOutcome → FetchResult
  | AttemptOutcome.resp s c =>
    if 400 ≤ s then FetchResult.httpError s url else FetchResult.ok c
  | AttemptOutcome.exc e => FetchResult.otherExc e

/-- The tenacity retry loop of `http_get_bytes`: `i` is the attempt
number (starting at 1), `rem` the attempts still allowed. Only
`HttpError` is retried (`retry_if_exception_type(HttpError)`); any other
exception propagates at once; with `reraise=True` an exhausted budget
re-raises the last `HttpError` unmodified. -/
def retryFrom (url : String) (oracle : Nat → AttemptOutcome) :
    Nat → Nat → FetchResult
  | _, 0 => FetchResult.otherExc "unreachable: empty retry budget"
  | i, rem + 1 =>
    match oneAttempt url (oracle i) with
    | FetchResult.httpError s u =>
      if rem = 0 then FetchResult.httpError s u
      else retryFrom url oracle (i + 1) rem
    | FetchResult.ok c => FetchResult.ok c
    | FetchResult.otherExc e => FetchResult.otherExc e

/-- The `stop_after_attempt(4)` budget. -/
def stopAttempts : Nat := 4

/-- Embedding of `http_get_bytes` as decorated: attempt 1 with a budget
of 4 total attempts; `oracle n` is what `requests.get` does on attempt
`n`. -/
def http_get_bytes (url : String) (oracle : Nat → AttemptOutcome) :
    FetchResult :=
  retryFrom url oracle 1 stopAttempts

/-- The `multiplier=0.8` parameter of `wait_exponential`. -/
def waitMultiplier : ℚ := 4 / 5

/-- The `min=1` parameter of `wait_exponential`. -/
def waitMin : ℚ := 1

/-- The `max=10` parameter of `wait_exponential`. -/
def waitMax : ℚ := 10

/-- Tenacity `wait_exponential.__call__` at attempt number `n`:
`multiplier * exp_base ** (attempt_number - 1)` clamped as
`max(max(0, min), min(result, max))`. -/
def waitAfterAttempt (n : Nat) : ℚ :=
  max (max 0 waitMin) (min (waitMultiplier * 2 ^ (n - 1)) waitMax)

/-- Sample date parse results for a three-row table, rows tagged 1..3:
rows 1 and 2 carry 2024-01-02, row 3 carries 2024-01-09. -/
def prSample : Nat → Option Date
  | 1 => some { year := 2024, month := 1, day := 2 }
  | 2 => some { year := 2024, month := 1, day := 2 }
  | 3 => some { year := 2024, month := 1, day := 9 }
  | _ => none

/-- C1: after parsing the resolved date column with unparsable values
mapped to a null marker, the selector fails with an explicit error exactly
when every row's date is invalid; otherwise it returns exactly the rows
whose parsed date equals the maximum valid date, all ties included. -/
theorem claim_C1_latest_week_selection {ρ : Type} (rows : List ρ)
    (parseR : ρ → Option Date) :
    (selectLatestWeek rows parseR = Except.error allNaTMsg ↔
      ∀ r ∈ rows, parseR r = none) ∧
    (∀ out, selectLatestWeek rows parseR = Except.ok out →
      ∃ m : Date, (∃ r ∈ rows, parseR r = some m) ∧
        (∀ r ∈ rows, ∀ d : Date, parseR r = some d → d.le m) ∧
        out = rows.filter (fun r => decide (parseR r = some m))) := by
  constructor
  · cases h : seriesMax (rows.map parseR) with
    | none =>
      simp only [selectLatestWeek, h]
      constructor
      · intro _ r hr
        exact (seriesMax_eq_none_iff _).mp h (parseR r)
          (List.mem_map_of_mem _ hr)
      · intro _; trivial
    | some m =>
      simp only [selectLatestWeek, h]
      constructor
      · intro hcon; exact absurd hcon (by simp)
      · intro hall
        rcases List.mem_map.mp (seriesMax_mem h) with ⟨r, hr, hpr⟩
        rw [hall r hr] at hpr
        cases hpr
  · intro out hout
    cases h : seriesMax (rows.map parseR) with
    | none =>
      simp only [selectLatestWeek, h] at hout
      exact absurd hout (by simp)
    | some m =>
      simp only [selectLatestWeek, h] at hout
      refine ⟨m, ?_, ?_, ?_⟩
      · rcases List.mem_map.mp (seriesMax_mem h) with ⟨r, hr, hpr⟩
        exact ⟨r, hr, hpr⟩
      · intro r hr d hd
        exact seriesMax_isMax h (hd ▸ List.mem_map_of_mem _ hr)
      · exact Except.ok.inj hout.symm

/-- Closed instance of the C1 theorem: on the three-row sample the
selector succeeds and returns exactly the maximum-date rows. -/
theorem claim_C1_witness :
    ∃ m : Date, (∃ r ∈ [1, 2, 3], prSample r = some m) ∧
      (∀ r ∈ [1, 2, 3], ∀ d : Date, prSample r = some d → d.le m) ∧
      [3] = [1, 2, 3].filter (fun r => decide (prSample r = some m)) :=
  (claim_C1_latest_week_selection [1, 2, 3] prSample).2 [3] (by rfl)

/-- C2 counterexample: on the table whose date column parses to
2024-01-02, 2024-01-02, 2024-01-09 (rows tagged 1, 2, 3), the selector
does not return the two rows dated 2024-01-02; it returns the single row
dated 2024-01-09. -/
theorem claim_C2_counterexample :
    selectLatestWeek [1, 2, 3] prSample ≠ Except.ok [1, 2] ∧
    selectLatestWeek [1, 2, 3] prSample ≠ Except.ok [2, 1] := by
  have h : selectLatestWeek [1, 2, 3] prSample = Except.ok [3] := by rfl
  rw [h]
  constructor <;> simp

/-- C2 amended: for the input table whose date column parses to
2024-01-02, 2024-01-02, 2024-01-09 (and no other rows), the latest-week
selector returns exactly the one row dated 2024-01-09. -/
theorem claim_C2_amended_latest_row :
    selectLatestWeek [1, 2, 3] prSample = Except.ok [3] := by
  rfl

/-- C9: the two column-name spellings normalize to the identical key, so
the normalized-name lookup of the date-column resolver gives the same
result for either spelling on every table. -/
theorem claim_C9_normalization_equivalence :
    norm "Report_Date_as_YYYY-MM-DD" = norm "report_date_as_yyyy_mm_dd" ∧
    ∀ cols : List String,
      cmapLookup cols (norm "Report_Date_as_YYYY-MM-DD") =
        cmapLookup cols (norm "report_date_as_yyyy_mm_dd") := by
  refine ⟨by decide, fun cols => ?_⟩
  have h : norm "Report_Date_as_YYYY-MM-DD" = norm "report_date_as_yyyy_mm_dd" := by
    decide
  rw [h]

theorem retryFrom_http_step {url : String} {oracle : Nat → AttemptOutcome}
    {i rem : Nat} {s : Nat} {u : String}
    (h : oneAttempt url (oracle i) = FetchResult.httpError s u)
    (hrem : rem ≠ 0) :
    retryFrom url oracle i (rem + 1) = retryFrom url oracle (i + 1) rem := by
  simp [retryFrom, h, hrem]

theorem retryFrom_http_last {url : String} {oracle : Nat → AttemptOutcome}
    {i : Nat} {s : Nat} {u : String}
    (h : oneAttempt url (oracle i) = FetchResult.httpError s u) :
    retryFrom url oracle i 1 = FetchResult.httpError s u := by
  simp [retryFrom, h]

theorem retryFrom_ok {url : String} {oracle : Nat → AttemptOutcome}
    {i rem : Nat} {c : List Nat}
    (h : oneAttempt url (oracle i) = FetchResult.ok c) :
    retryFrom url oracle i (rem + 1) = FetchResult.ok c := by
  simp [retryFrom, h]

theorem retryFrom_exc {url : String} {oracle : Nat → AttemptOutcome}
    {i rem : Nat} {e : String}
    (h : oneAttempt url (oracle i) = FetchResult.otherExc e) :
    retryFrom url oracle i (rem + 1) = FetchResult.otherExc e := by
  simp [retryFrom, h]

/-- C4 counterexample: the first between-attempt wait of
`wait_exponential(multiplier=0.8, min=1, max=10)` is 1 second — the
`min=1` clamp overrides the 0.8 multiplier — so the backoff does not
start at 0.8s. -/
theorem claim_C4_counterexample :
    waitAfterAttempt 1 = 1 ∧ waitAfterAttempt 1 ≠ (4 : ℚ) / 5 := by
  constructor <;>
    norm_num [waitAfterAttempt, waitMultiplier, waitMin, waitMax]

/-- C4 amended: a response with status at least 400 raises `HttpError`
(and only that class is retried); with a budget of 4 total attempts, 3
failing responses followed by a succeeding one succeed overall; 4 failing
responses re-raise the final failure unmodified; a non-HTTP exception
propagates untouched without retry; and the between-attempt waits are
exponential with multiplier 0.8, clamped below at 1s and above at 10s (so
the first wait is 1s, not 0.8s). -/
theorem claim_C4_amended_fetch_retry :
    (∀ url s c, 400 ≤ s →
      oneAttempt url (AttemptOutcome.resp s c) = FetchResult.httpError s url) ∧
    (∀ url s c, s < 400 →
      oneAttempt url (AttemptOutcome.resp s c) = FetchResult.ok c) ∧
    (∀ url oracle (st : Nat → Nat) (ct : Nat → List Nat) s4 c4,
      (∀ n, 1 ≤ n → n ≤ 3 → oracle n = AttemptOutcome.resp (st n) (ct n)) →
      (∀ n, 1 ≤ n → n ≤ 3 → 400 ≤ st n) →
      oracle 4 = AttemptOutcome.resp s4 c4 → s4 < 400 →
      http_get_bytes url oracle = FetchResult.ok c4) ∧
    (∀ url oracle (st : Nat → Nat) (ct : Nat → List Nat),
      (∀ n, 1 ≤ n → n ≤ 4 →
        oracle n = AttemptOutcome.resp (st n) (ct n) ∧ 400 ≤ st n) →
      http_get_bytes url oracle = FetchResult.httpError (st 4) url) ∧
    (∀ url oracle e, oracle 1 = AttemptOutcome.exc e →
      http_get_bytes url oracle = FetchResult.otherExc e) ∧
    (∀ n : Nat, waitAfterAttempt n =
      max 1 (min ((4 / 5 : ℚ) * 2 ^ (n - 1)) 10)) ∧
    (∀ n : Nat, 1 ≤ waitAfterAttempt n ∧ waitAfterAttempt n ≤ 10) ∧
    waitAfterAttempt 1 = 1 ∧ waitAfterAttempt 2 = 8 / 5 ∧
    waitAfterAttempt 3 = 16 / 5 := by
  refine ⟨?_, ?_, ?_, ?_, ?_, ?_, ?_, ?_, ?_, ?_⟩
  · intro url s c hs
    simp [oneAttempt, hs]
  · intro url s c hs
    have : ¬ (400 ≤ s) := by omega
    simp [oneAttempt, this]
  · intro url oracle st ct s4 c4 hresp hfail h4 hs4
    have e1 : oneAttempt url (oracle 1) = FetchResult.httpError (st 1) url := by
      rw [hresp 1 (by norm_num) (by norm_num)]
      simp [oneAttempt, hfail 1 (by norm_num) (by norm_num)]
    have e2 : oneAttempt url (oracle 2) = FetchResult.httpError (st 2) url := by
      rw [hresp 2 (by norm_num) (by norm_num)]
      simp [oneAttempt, hfail 2 (by norm_num) (by norm_num)]
    have e3 : oneAttempt url (oracle 3) = FetchResult.httpError (st 3) url := by
      rw [hresp 3 (by norm_num) (by norm_num)]
      simp [oneAttempt, hfail 3 (by norm_num) (by norm_num)]
    have e4 : oneAttempt url (oracle 4) = FetchResult.ok c4 := by
      rw [h4]
      have : ¬ (400 ≤ s4) := by omega
      simp [oneAttempt, this]
    show retryFrom url oracle 1 stopAttempts = FetchResult.ok c4
    rw [show stopAttempts = 3 + 1 from rfl,
      retryFrom_http_step e1 (by norm_num),
      retryFrom_http_step e2 (by norm_num),
      retryFrom_http_step e3 (by norm_num),
      retryFrom_ok e4]
  · intro url oracle st ct hall
    have e1 : oneAttempt url (oracle 1) = FetchResult.httpError (st 1) url := by
      rw [(hall 1 (by norm_num) (by norm_num)).1]
      simp [oneAttempt, (hall 1 (by norm_num) (by norm_num)).2]
    have e2 : oneAttempt url (oracle 2) = FetchResult.httpError (st 2) url := by
      rw [(hall 2 (by norm_num) (by norm_num)).1]
      simp [oneAttempt, (hall 2 (by norm_num) (by norm_num)).2]
    have e3 : oneAttempt url (oracle 3) = FetchResult.httpError (st 3) url := by
      rw [(hall 3 (by norm_num) (by norm_num)).1]
      simp [oneAttempt, (hall 3 (by norm_num) (by norm_num)).2]
    have e4 : oneAttempt url (oracle 4) = FetchResult.httpError (st 4) url := by
      rw [(hall 4 (by norm_num) (by norm_num)).1]
      simp [oneAttempt, (hall 4 (by norm_num) (by norm_num)).2]
    show retryFrom url oracle 1 stopAttempts = FetchResult.httpError (st 4) url
    rw [show stopAttempts = 3 + 1 from rfl,
      retryFrom_http_step e1 (by norm_num),
      retryFrom_http_step e2 (by norm_num),
      retryFrom_http_step e3 (by norm_num),
      retryFrom_http_last e4]
  · intro url oracle e h1
    have e1 : oneAttempt url (oracle 1) = FetchResult.otherExc e := by
      rw [h1]; rfl
    show retryFrom url oracle 1 stopAttempts = FetchResult.otherExc e
    rw [show stopAttempts = 3 + 1 from rfl, retryFrom_exc e1]
  · intro n
    norm_num [waitAfterAttempt, waitMultiplier, waitMin, waitMax]
  · intro n
    constructor
    · exact le_trans (by norm_num [waitMin]) (le_max_left _ _)
    · refine max_le ?_ (le_trans (min_le_right _ _) ?_) <;>
        norm_num [waitMin, waitMax]
  · norm_num [waitAfterAttempt, waitMultiplier, waitMin, waitMax]
  · norm_num [waitAfterAttempt, waitMultiplier, waitMin, waitMax]
  · norm_num [waitAfterAttempt, waitMultiplier, waitMin, waitMax]

/-- Oracle of a fetch run whose first three responses fail with status
500 and whose fourth succeeds with status 200. -/
def oracleSample : Nat → AttemptOutcome := fun n =>
  if n ≤ 3 then AttemptOutcome.resp 500 [] else AttemptOutcome.resp 200 [7]

/-- Closed instance of the amended C4 theorem: three failing responses
followed by a succeeding one make `http_get_bytes` succeed overall. -/
theorem claim_C4_witness :
    http_get_bytes "u" oracleSample = FetchResult.ok [7] :=
  claim_C4_amended_fetch_retry.2.2.1 "u" oracleSample
    (fun _ => 500) (fun _ => []) 200 [7]
    (fun n _ h3 => by simp [oracleSample, h3])
    (fun n _ _ => by norm_num)
    (by norm_num [oracleSample])
    (by norm_num)

theorem cmapLookup_eq_some {cols : List String} {k res : String}
    (h : cmapLookup cols k = some res) : res ∈ cols ∧ norm res = k := by
  refine ⟨List.mem_reverse.mp (List.mem_of_find?_eq_some h), ?_⟩
  have := List.find?_some h
  simpa [beq_iff_eq] using this

theorem cmapLookup_eq_none_iff {cols : List String} {k : String} :
    cmapLookup cols k = none ↔ ∀ c ∈ cols, norm c ≠ k := by
  simp [cmapLookup, List.find?_eq_none, List.mem_reverse]

theorem any_norm_eq_isSome (cols : List String) (k : String) :
    cols.any (fun c => norm c == k) = (cmapLookup cols k).isSome := by
  rw [Bool.eq_iff_iff]
  simp [List.any_eq_true, cmapLookup, List.find?_isSome, List.mem_reverse]

/-- Statement-side helper: the first of the three candidate names whose
normalized form matches the normalized name of some column. -/
def firstCand (cols : List String) : Option String :=
  candidates.find? (fun cand => cols.any (fun c => norm c == norm cand))

theorem findSome?_of_find?_isSome {α β : Type} (f : α → Option β)
    (l : List α) :
    ∀ a b, l.find? (fun x => (f x).isSome) = some a → f a = some b →
      l.findSome? f = some b := by
  induction l with
  | nil => intro a b h; simp at h
  | cons x t ih =>
    intro a b hfind hf
    rw [List.find?_cons] at hfind
    rw [List.findSome?_cons]
    cases hx : (f x).isSome with
    | true =>
      rw [hx] at hfind
      simp only [Option.some.injEq] at hfind
      subst hfind
      rw [hf]
    | false =>
      rw [hx] at hfind
      have : f x = none := by
        cases hfx : f x with
        | none => rfl
        | some b2 => rw [hfx] at hx; simp at hx
      rw [this]
      exact ih a b hfind hf

theorem find?_isSome_of_findSome? {α β : Type} (f : α → Option β)
    (l : List α) :
    ∀ b, l.findSome? f = some b →
      ∃ a, l.find? (fun x => (f x).isSome) = some a ∧ f a = some b := by
  induction l with
  | nil => intro b h; simp at h
  | cons x t ih =>
    intro b hfs
    rw [List.findSome?_cons] at hfs
    rw [List.find?_cons]
    cases hfx : f x with
    | some b2 =>
      rw [hfx] at hfs
      simp only [Option.some.injEq] at hfs
      subst hfs
      exact ⟨x, by simp [hfx], hfx⟩
    | none =>
      rw [hfx] at hfs
      rcases ih b hfs with ⟨a, ha1, ha2⟩
      exact ⟨a, by simp [hfx, ha1], ha2⟩

theorem findSome?_none_iff_find?_none {α β : Type} (f : α → Option β)
    (l : List α) :
    l.findSome? f = none ↔ l.find? (fun x => (f x).isSome) = none := by
  simp only [List.findSome?_eq_none_iff, List.find?_eq_none]
  constructor
  · intro h x hx
    simp [h x hx]
  · intro h x hx
    have := h x hx
    cases hfx : f x with
    | none => rfl
    | some b => rw [hfx] at this; simp at this

theorem firstCand_eq (cols : List String) :
    firstCand cols =
      candidates.find? (fun cand => (cmapLookup cols (norm cand)).isSome) := by
  unfold firstCand
  congr 1
  funext cand
  exact any_norm_eq_isSome cols (norm cand)

/-- C3: `find_date_col` resolves the date column by candidate priority
on normalized names, falls back to the first column containing both
"report" and "date" (lowercased), and errors exactly when no column
satisfies either rule. -/
theorem claim_C3_date_column_resolution (cols : List String) :
    (∀ cand, firstCand cols = some cand →
      ∃ res, find_date_col cols = Except.ok res ∧ res ∈ cols ∧
        norm res = norm cand) ∧
    (firstCand cols = none →
      ∀ res, cols.find? reportDateFallback = some res →
        find_date_col cols = Except.ok res) ∧
    (find_date_col cols = Except.error noDateColMsg ↔
      (∀ c ∈ cols, (∀ cand ∈ candidates, norm c ≠ norm cand) ∧
        reportDateFallback c = false)) := by
  refine ⟨?_, ?_, ?_⟩
  · intro cand hcand
    rw [firstCand_eq] at hcand
    have hsome : (cmapLookup cols (norm cand)).isSome = true := by
      have := List.find?_some
        (p := fun c => (cmapLookup cols (norm c)).isSome) hcand
      simpa using this
    rcases Option.isSome_iff_exists.mp hsome with ⟨res, hres⟩
    have hfs : candidates.findSome? (fun c => cmapLookup cols (norm c)) =
        some res :=
      findSome?_of_find?_isSome _ _ cand res hcand hres
    refine ⟨res, ?_, (cmapLookup_eq_some hres).1, (cmapLookup_eq_some hres).2⟩
    unfold find_date_col
    rw [hfs]
  · intro hnone res hres
    rw [firstCand_eq] at hnone
    have hfs : candidates.findSome? (fun c => cmapLookup cols (norm c)) =
        none :=
      (findSome?_none_iff_find?_none _ _).mpr hnone
    unfold find_date_col
    rw [hfs, hres]
  · constructor
    · intro herr
      unfold find_date_col at herr
      cases hfs : candidates.findSome? (fun c => cmapLookup cols (norm c)) with
      | some res => rw [hfs] at herr; simp at herr
      | none =>
        rw [hfs] at herr
        cases hfb : cols.find? reportDateFallback with
        | some res => rw [hfb] at herr; simp at herr
        | none =>
          intro c hc
          constructor
          · intro cand hcand
            have := List.findSome?_eq_none_iff.mp hfs cand hcand
            exact fun heq => (cmapLookup_eq_none_iff.mp this c hc) heq
          · have := List.find?_eq_none.mp hfb c hc
            simpa using this
    · intro hall
      have hfs : candidates.findSome? (fun c => cmapLookup cols (norm c)) =
          none := by
        rw [List.findSome?_eq_none_iff]
        intro cand hcand
        rw [cmapLookup_eq_none_iff]
        intro c hc
        exact (hall c hc).1 cand hcand
      have hfb : cols.find? reportDateFallback = none := by
        rw [List.find?_eq_none]
        intro c hc
        simp [(hall c hc).2]
      unfold find_date_col
      rw [hfs, hfb]

/-- Column list of a realistic COT table header. -/
def colsSample : List String :=
  ["Market_and_Exchange_Names", "Report_Date_as_YYYY-MM-DD", "Open_Interest_All"]

/-- Closed instance of the C3 theorem: on a realistic header the resolver
returns a column whose normalized name matches the first candidate. -/
theorem claim_C3_witness :
    ∃ res, find_date_col colsSample = Except.ok res ∧ res ∈ colsSample ∧
      norm res = norm "Report_Date_as_YYYY-MM-DD" :=
  (claim_C3_date_column_resolution colsSample).1 "Report_Date_as_YYYY-MM-DD"
    (by decide)

theorem find?_eq_self_of_nodup_keys :
    ∀ (l : ZipArchive) (p : String × List Nat),
      (l.map Prod.fst).Nodup → p ∈ l →
      l.find? (fun e => e.1 == p.1) = some p := by
  intro l
  induction l with
  | nil => intro p _ hp; simp at hp
  | cons a t ih =>
    intro p hnd hp
    rw [List.map_cons, List.nodup_cons] at hnd
    rw [List.find?_cons]
    rcases List.mem_cons.mp hp with rfl | hpt
    · simp
    · have hne : (a.1 == p.1) = false := by
        simp only [beq_eq_false_iff_ne, ne_eq]
        intro heq
        exact hnd.1 (heq ▸ List.mem_map_of_mem _ hpt)
      simp only [hne]
      exact ih p hnd.2 hpt

theorem reverse_find?_name {entries : ZipArchive} {m : String}
    (hm : m ∈ entries.map Prod.fst) :
    ∃ q, entries.reverse.find? (fun e => e.1 == m) = some q ∧
      q ∈ entries ∧ q.1 = m := by
  rcases List.mem_map.mp hm with ⟨e, he, rfl⟩
  have hsome : (entries.reverse.find? (fun x => x.1 == e.1)).isSome = true := by
    rw [List.find?_isSome]
    exact ⟨e, List.mem_reverse.mpr he, by simp⟩
  rcases Option.isSome_iff_exists.mp hsome with ⟨q, hq⟩
  refine ⟨q, hq, List.mem_reverse.mp (List.mem_of_find?_eq_some hq), ?_⟩
  have := List.find?_some hq
  simpa using this

theorem selectMember_ok_mem {n0 : String} {rest : List String} {m : String}
    (h : selectMember (n0 :: rest) = Except.ok m) : m ∈ n0 :: rest := by
  unfold selectMember at h
  simp only [Except.ok.injEq] at h
  subst h
  cases hf : (n0 :: rest).find? isTabularName with
  | none => simp [hf]
  | some n => simp [hf, List.mem_of_find?_eq_some hf]

theorem readArchive_nonempty (e0 : String × List Nat) (rest : ZipArchive) :
    ∃ (m : String) (q : String × List Nat),
      selectMember ((e0 :: rest : ZipArchive).map Prod.fst) = Except.ok m ∧
      (e0 :: rest : ZipArchive).reverse.find? (fun e => e.1 == m) = some q ∧
      q ∈ (e0 :: rest : ZipArchive) ∧ q.1 = m ∧
      readArchive (e0 :: rest) = Except.ok q.2 := by
  have hsel : ∃ m,
      selectMember ((e0 :: rest : ZipArchive).map Prod.fst) = Except.ok m := by
    rw [List.map_cons]
    exact ⟨_, rfl⟩
  rcases hsel with ⟨m, hm⟩
  have hmem : m ∈ (e0 :: rest : ZipArchive).map Prod.fst := by
    rw [List.map_cons] at hm ⊢
    exact selectMember_ok_mem hm
  rcases reverse_find?_name hmem with ⟨q, hq, hqmem, hqname⟩
  refine ⟨m, q, hm, hq, hqmem, hqname, ?_⟩
  unfold readArchive
  simp only [hm, hq]

theorem readArchive_of_tabular_nodup {entries : ZipArchive}
    {p : String × List Nat}
    (hnd : (entries.map Prod.fst).Nodup)
    (h : entries.find? (fun q => isTabularName q.1) = some p) :
    readArchive entries = Except.ok p.2 := by
  cases entries with
  | nil => simp at h
  | cons e0 rest =>
    have hmap : ((e0 :: rest).map Prod.fst).find? isTabularName =
        some p.1 := by
      rw [List.find?_map]
      have hco : (isTabularName ∘ Prod.fst :
          String × List Nat → Bool) = fun q => isTabularName q.1 := rfl
      rw [hco, h]
      rfl
    have hrev : (e0 :: rest : ZipArchive).reverse.find?
        (fun e => e.1 == p.1) = some p := by
      apply find?_eq_self_of_nodup_keys
      · rw [List.map_reverse, List.nodup_reverse]
        exact hnd
      · exact List.mem_reverse.mpr (List.mem_of_find?_eq_some h)
    unfold readArchive selectMember
    simp only [List.map_cons] at hmap ⊢
    rw [hmap]
    simp only [Option.getD_some]
    rw [hrev]

theorem readArchive_no_tabular_nodup {e0 : String × List Nat}
    {rest : ZipArchive}
    (hnd : (((e0 :: rest) : ZipArchive).map Prod.fst).Nodup)
    (h : (e0 :: rest : ZipArchive).find? (fun q => isTabularName q.1) = none) :
    readArchive (e0 :: rest) = Except.ok e0.2 := by
  have hmap : ((e0 :: rest).map Prod.fst).find? isTabularName = none := by
    rw [List.find?_map]
    have hco : (isTabularName ∘ Prod.fst :
        String × List Nat → Bool) = fun q => isTabularName q.1 := rfl
    rw [hco, h]
    rfl
  have hrev : (e0 :: rest : ZipArchive).reverse.find?
      (fun e => e.1 == e0.1) = some e0 := by
    apply find?_eq_self_of_nodup_keys
    · rw [List.map_reverse, List.nodup_reverse]
      exact hnd
    · exact List.mem_reverse.mpr (by simp)
  unfold readArchive selectMember
  simp only [List.map_cons] at hmap ⊢
  rw [hmap]
  simp only [Option.getD_none]
  rw [hrev]

/-- Archive holding two entries with the same tabular name and different
bytes. -/
def dupArchive : ZipArchive :=
  [("data.txt", [1]), ("data.txt", [2])]

/-- C5 counterexample: on an archive with a duplicated member name, the
first entry whose name has a tabular extension carries the bytes `[1]`,
but the reader returns the bytes `[2]` of the last entry with that name —
`zf.open` resolves the name through the last-wins `NameToInfo` dict, so
the first-matching-entry reading of the claim fails. -/
theorem claim_C5_counterexample :
    dupArchive.find? (fun q => isTabularName q.1) =
      some ("data.txt", [1]) ∧
    readArchive dupArchive = Except.ok [2] ∧
    readArchive dupArchive ≠ Except.ok [1] := by
  have h : readArchive dupArchive = Except.ok [2] := by rfl
  refine ⟨by decide, h, ?_⟩
  rw [h]
  simp

/-- C5 amended: the reader errors exactly on an empty archive; otherwise
it selects the first name in archive order whose lowercased form ends in
".txt" or ".csv" (else the first entry's name) and reads the raw bytes of
the last entry in archive order bearing that name, since CPython's
`ZipFile` resolves duplicate names last-wins; when the entry names are
distinct this is the first entry whose name matches, and the archive's
first entry when none matches. -/
theorem claim_C5_amended_member_selection (entries : ZipArchive) :
    (readArchive entries = Except.error emptyZipMsg ↔ entries = []) ∧
    (∀ (e0 : String × List Nat) (rest : ZipArchive), entries = e0 :: rest →
      ∃ (m : String) (q : String × List Nat),
        selectMember (entries.map Prod.fst) = Except.ok m ∧
        entries.reverse.find? (fun e => e.1 == m) = some q ∧
        q ∈ entries ∧ q.1 = m ∧
        readArchive entries = Except.ok q.2) ∧
    ((entries.map Prod.fst).Nodup →
      (∀ p : String × List Nat,
        entries.find? (fun q => isTabularName q.1) = some p →
        readArchive entries = Except.ok p.2) ∧
      (∀ (e0 : String × List Nat) (rest : ZipArchive), entries = e0 :: rest →
        entries.find? (fun q => isTabularName q.1) = none →
        readArchive entries = Except.ok e0.2)) := by
  refine ⟨?_, ?_, ?_⟩
  · constructor
    · intro herr
      cases hent : entries with
      | nil => rfl
      | cons e0 rest =>
        subst hent
        rcases readArchive_nonempty e0 rest with ⟨m, q, _, _, _, _, hok⟩
        rw [hok] at herr
        cases herr
    · intro h
      subst h
      rfl
  · intro e0 rest hent
    subst hent
    exact readArchive_nonempty e0 rest
  · intro hnd
    refine ⟨fun p hp => readArchive_of_tabular_nodup hnd hp, ?_⟩
    intro e0 rest hent hf
    subst hent
    exact readArchive_no_tabular_nodup hnd hf

/-- Archive of a fetched year ZIP whose tabular member is not first. -/
def archiveSample : ZipArchive :=
  [("readme.pdf", [1]), ("f_year.TXT", [2]), ("meta.xml", [3])]

/-- Closed instance of the amended C5 theorem: with distinct entry names
the reader picks the bytes of the first entry with a tabular extension
even when it is not the archive's first entry. -/
theorem claim_C5_witness : readArchive archiveSample = Except.ok [2] :=
  ((claim_C5_amended_member_selection archiveSample).2.2 (by decide)).1
    ("f_year.TXT", [2]) (by decide)

/-- Sample parsed table of one fetched year: a date column and one value
column, two report dates. -/
def tblSample : Table :=
  { cols := ["Report_Date_as_YYYY-MM-DD", "v"]
  , rows := [[some "2024-01-02", some "a"], [some "2024-01-09", some "b"]] }

/-- Sample CSV parser: every byte payload parses to `tblSample`. -/
def rcSample : List Nat → Table := fun _ => tblSample

/-- Sample date parser for the two report dates of `tblSample`. -/
def tdSample : String → Option Date := fun s =>
  if s = "2024-01-02" then some { year := 2024, month := 1, day := 2 }
  else if s = "2024-01-09" then some { year := 2024, month := 1, day := 9 }
  else none

/-- Sample per-year archives: one tabular member with a one-byte body. -/
def archSample : Int → ZipArchive := fun _ => [("annual.txt", [0])]

/-- C7: when the run aborts with the empty-archive error, the
no-date-column error, or the all-dates-invalid error, the effect trace is
empty — no output directory is created and no output file is written,
because each of these errors is raised strictly before the writer step. -/
theorem claim_C7_failure_atomicity (outDir : String) (yearsBack : Nat)
    (nyYear : Int) (archives : Int → ZipArchive)
    (read_csv : List Nat → Table) (toDate : String → Option Date)
    (effs : List FsEffect) (msg : String)
    (h : mainRun outDir yearsBack nyYear archives read_csv toDate =
      (effs, Except.error msg))
    (_hmsg : msg = emptyZipMsg ∨ msg = noDateColMsg ∨ msg = allNaTMsg) :
    effs = [] := by
  unfold mainRun at h
  cases hm : (yearsList nyYear yearsBack).mapM
      (fun y => fetch_year (archives y) read_csv) with
  | error e =>
    simp only [hm] at h
    simpa using (congrArg Prod.fst h).symm
  | ok frames =>
    simp only [hm] at h
    cases hd : find_date_col (concatTables frames).cols with
    | error e =>
      simp only [hd] at h
      simpa using (congrArg Prod.fst h).symm
    | ok date_col =>
      simp only [hd] at h
      cases hs : seriesMax ((concatTables frames).rows.map
          (fun r => parseCellDate toDate
            (getCell (concatTables frames).cols date_col r))) with
      | none =>
        simp only [hs] at h
        simpa using (congrArg Prod.fst h).symm
      | some latest =>
        simp only [hs] at h
        have := congrArg Prod.snd h
        simp at this

/-- Closed instance of the C7 theorem: a run over empty archives aborts
with the empty-archive error and an empty effect trace. -/
theorem claim_C7_witness : ([] : List FsEffect) = [] :=
  claim_C7_failure_atomicity "data" 0 2024 (fun _ => []) rcSample tdSample
    [] emptyZipMsg (by rfl) (Or.inl rfl)

theorem mainRun_ok_shape (outDir : String) (yearsBack : Nat) (nyYear : Int)
    (archives : Int → ZipArchive) (read_csv : List Nat → Table)
    (toDate : String → Option Date) (effs : List FsEffect)
    (h : mainRun outDir yearsBack nyYear archives read_csv toDate =
      (effs, Except.ok ())) :
    ∃ (frames : List Table) (date_col : String) (latest : Date),
      (yearsList nyYear yearsBack).mapM
        (fun y => fetch_year (archives y) read_csv) = Except.ok frames ∧
      find_date_col (concatTables frames).cols = Except.ok date_col ∧
      seriesMax ((concatTables frames).rows.map
        (fun r => parseCellDate toDate
          (getCell (concatTables frames).cols date_col r))) = some latest ∧
      effs = writerEffects outDir latest
        { cols := (concatTables frames).cols
        , rows := (concatTables frames).rows.filter
            (fun r => decide (parseCellDate toDate
              (getCell (concatTables frames).cols date_col r) = some latest)) } := by
  unfold mainRun at h
  cases hm : (yearsList nyYear yearsBack).mapM
      (fun y => fetch_year (archives y) read_csv) with
  | error e =>
    simp only [hm] at h
    exact absurd (congrArg Prod.snd h) (by simp)
  | ok frames =>
    simp only [hm] at h
    cases hd : find_date_col (concatTables frames).cols with
    | error e =>
      simp only [hd] at h
      exact absurd (congrArg Prod.snd h) (by simp)
    | ok date_col =>
      simp only [hd] at h
      cases hs : seriesMax ((concatTables frames).rows.map
          (fun r => parseCellDate toDate
            (getCell (concatTables frames).cols date_col r))) with
      | none =>
        simp only [hs] at h
        exact absurd (congrArg Prod.snd h) (by simp)
      | some latest =>
        simp only [hs] at h
        refine ⟨frames, date_col, latest, rfl, hd, hs, ?_⟩
        simpa using (congrArg Prod.fst h).symm

theorem digitChar_ne_dot {m : Nat} (h : m < 10) : Nat.digitChar m ≠ '.' := by
  interval_cases m <;> decide

theorem toDigitsCore_ne_dot :
    ∀ (fuel n : Nat) (acc : List Char), (∀ c ∈ acc, c ≠ '.') →
      ∀ c ∈ Nat.toDigitsCore 10 fuel n acc, c ≠ '.' := by
  intro fuel
  induction fuel with
  | zero =>
    intro n acc hacc
    simpa [Nat.toDigitsCore] using hacc
  | succ f ih =>
    intro n acc hacc c hc
    simp only [Nat.toDigitsCore] at hc
    by_cases hnd : n / 10 = 0
    · rw [if_pos hnd] at hc
      rcases List.mem_cons.mp hc with h | h
      · subst h
        exact digitChar_ne_dot (Nat.mod_lt n (by norm_num))
      · exact hacc c h
    · rw [if_neg hnd] at hc
      refine ih (n / 10) _ ?_ c hc
      intro c2 hc2
      rcases List.mem_cons.mp hc2 with h | h
      · subst h
        exact digitChar_ne_dot (Nat.mod_lt n (by norm_num))
      · exact hacc c2 h

theorem toString_nat_ne_dot (n : Nat) : ∀ c ∈ (toString n).toList, c ≠ '.' := by
  intro c hc
  have he : (toString n).toList = Nat.toDigitsCore 10 (n + 1) n [] := rfl
  rw [he] at hc
  exact toDigitsCore_ne_dot (n + 1) n [] (by simp) c hc

theorem append_toList (a b : String) :
    (a ++ b).toList = a.toList ++ b.toList := by
  simp [String.toList, String.data_append]

theorem append_ne_dot {a b : String} (ha : ∀ c ∈ a.toList, c ≠ '.')
    (hb : ∀ c ∈ b.toList, c ≠ '.') :
    ∀ c ∈ (a ++ b).toList, c ≠ '.' := by
  intro c hc
  rw [append_toList] at hc
  rcases List.mem_append.mp hc with h | h
  · exact ha c h
  · exact hb c h

theorem padZeros_ne_dot (w n : Nat) :
    ∀ c ∈ (padZeros w n).toList, c ≠ '.' := by
  unfold padZeros
  refine append_ne_dot ?_ (toString_nat_ne_dot n)
  intro c hc
  have : c = '0' := (List.eq_of_mem_replicate hc)
  subst this
  decide

theorem dateStamp_ne_dot (d : Date) :
    ∀ c ∈ (dateStamp d).toList, c ≠ '.' := by
  unfold dateStamp
  refine append_ne_dot (append_ne_dot (append_ne_dot (append_ne_dot
    (padZeros_ne_dot 4 d.year) (by decide)) (padZeros_ne_dot 2 d.month))
    (by decide)) (padZeros_ne_dot 2 d.day)

theorem withSuffix_of_ne_dot {name : String} (suf : String)
    (h : ∀ c ∈ name.toList, c ≠ '.') :
    withSuffix name suf = name ++ suf := by
  unfold withSuffix
  have hnone : name.toList.reverse.findIdx? (fun c => c == '.') = none := by
    rw [List.findIdx?_eq_none_iff]
    intro x hx
    simp [h x (List.mem_reverse.mp hx)]
  rw [hnone]

theorem writerEffects_eq (outDir : String) (D : Date) (lw : Table) :
    writerEffects outDir D lw =
      [FsEffect.mkdirP [outDir, toString D.year],
        FsEffect.writeFile [outDir, toString D.year,
          "cot_disagg_fut_" ++ dateStamp D ++ ".csv"] Fmt.csv lw,
        FsEffect.writeFile [outDir, toString D.year,
          "cot_disagg_fut_" ++ dateStamp D ++ ".parquet"] Fmt.parquet lw,
        FsEffect.writeFile [outDir, toString D.year,
          "cot_disagg_fut_latest_" ++ toString D.year ++ ".csv"] Fmt.csv lw,
        FsEffect.writeFile [outDir, toString D.year,
          "cot_disagg_fut_latest_" ++ toString D.year ++ ".parquet"]
          Fmt.parquet lw] := by
  have hhist : ∀ c ∈ ("cot_disagg_fut_" ++ dateStamp D).toList, c ≠ '.' :=
    append_ne_dot (by decide) (dateStamp_ne_dot D)
  have hlat : ∀ c ∈ ("cot_disagg_fut_latest_" ++ toString D.year).toList,
      c ≠ '.' :=
    append_ne_dot (by decide) (toString_nat_ne_dot D.year)
  simp only [writerEffects, WRITE_PARQUET, if_true,
    withSuffix_of_ne_dot ".csv" hhist, withSuffix_of_ne_dot ".parquet" hhist,
    withSuffix_of_ne_dot ".csv" hlat, withSuffix_of_ne_dot ".parquet" hlat]
  simp [String.append_assoc]

/-- C6: on a successful run whose latest report date is `D`, the effect
trace makes the directory `outDir/<year of D>` (parents included) and
then writes the filtered subset, by full overwrite, to exactly the four
files `cot_disagg_fut_<D as YYYY-MM-DD>.csv` / `.parquet` and
`cot_disagg_fut_latest_<year of D>.csv` / `.parquet` in that directory. -/
theorem claim_C6_writer_outputs (outDir : String) (yearsBack : Nat)
    (nyYear : Int) (archives : Int → ZipArchive)
    (read_csv : List Nat → Table) (toDate : String → Option Date)
    (effs : List FsEffect)
    (h : mainRun outDir yearsBack nyYear archives read_csv toDate =
      (effs, Except.ok ())) :
    ∃ (frames : List Table) (date_col : String) (D : Date) (lw : Table),
      (yearsList nyYear yearsBack).mapM
        (fun y => fetch_year (archives y) read_csv) = Except.ok frames ∧
      find_date_col (concatTables frames).cols = Except.ok date_col ∧
      seriesMax ((concatTables frames).rows.map
        (fun r => parseCellDate toDate
          (getCell (concatTables frames).cols date_col r))) = some D ∧
      lw = { cols := (concatTables frames).cols
           , rows := (concatTables frames).rows.filter
               (fun r => decide (parseCellDate toDate
                 (getCell (concatTables frames).cols date_col r) = some D)) } ∧
      effs =
        [FsEffect.mkdirP [outDir, toString D.year],
          FsEffect.writeFile [outDir, toString D.year,
            "cot_disagg_fut_" ++ dateStamp D ++ ".csv"] Fmt.csv lw,
          FsEffect.writeFile [outDir, toString D.year,
            "cot_disagg_fut_" ++ dateStamp D ++ ".parquet"] Fmt.parquet lw,
          FsEffect.writeFile [outDir, toString D.year,
            "cot_disagg_fut_latest_" ++ toString D.year ++ ".csv"] Fmt.csv lw,
          FsEffect.writeFile [outDir, toString D.year,
            "cot_disagg_fut_latest_" ++ toString D.year ++ ".parquet"]
            Fmt.parquet lw] := by
  rcases mainRun_ok_shape outDir yearsBack nyYear archives read_csv toDate
    effs h with ⟨frames, date_col, latest, h1, h2, h3, h4⟩
  refine ⟨frames, date_col, latest, _, h1, h2, h3, rfl, ?_⟩
  rw [h4, writerEffects_eq]

/-- Effect trace of the sample run: latest date 2024-01-09, one data row. -/
def effsSample : List FsEffect :=
  [FsEffect.mkdirP ["data", "2024"],
    FsEffect.writeFile ["data", "2024", "cot_disagg_fut_2024-01-09.csv"]
      Fmt.csv
      { cols := ["Report_Date_as_YYYY-MM-DD", "v"]
      , rows := [[some "2024-01-09", some "b"]] },
    FsEffect.writeFile ["data", "2024", "cot_disagg_fut_2024-01-09.parquet"]
      Fmt.parquet
      { cols := ["Report_Date_as_YYYY-MM-DD", "v"]
      , rows := [[some "2024-01-09", some "b"]] },
    FsEffect.writeFile ["data", "2024", "cot_disagg_fut_latest_2024.csv"]
      Fmt.csv
      { cols := ["Report_Date_as_YYYY-MM-DD", "v"]
      , rows := [[some "2024-01-09", some "b"]] },
    FsEffect.writeFile ["data", "2024", "cot_disagg_fut_latest_2024.parquet"]
      Fmt.parquet
      { cols := ["Report_Date_as_YYYY-MM-DD", "v"]
      , rows := [[some "2024-01-09", some "b"]] }]

/-- Closed instance of the C6 theorem on the sample run. -/
theorem claim_C6_witness :
    ∃ (frames : List Table) (date_col : String) (D : Date) (lw : Table),
      (yearsList 2024 0).mapM
        (fun y => fetch_year (archSample y) rcSample) = Except.ok frames ∧
      find_date_col (concatTables frames).cols = Except.ok date_col ∧
      seriesMax ((concatTables frames).rows.map
        (fun r => parseCellDate tdSample
          (getCell (concatTables frames).cols date_col r))) = some D ∧
      lw = { cols := (concatTables frames).cols
           , rows := (concatTables frames).rows.filter
               (fun r => decide (parseCellDate tdSample
                 (getCell (concatTables frames).cols date_col r) = some D)) } ∧
      effsSample =
        [FsEffect.mkdirP ["data", toString D.year],
          FsEffect.writeFile ["data", toString D.year,
            "cot_disagg_fut_" ++ dateStamp D ++ ".csv"] Fmt.csv lw,
          FsEffect.writeFile ["data", toString D.year,
            "cot_disagg_fut_" ++ dateStamp D ++ ".parquet"] Fmt.parquet lw,
          FsEffect.writeFile ["data", toString D.year,
            "cot_disagg_fut_latest_" ++ toString D.year ++ ".csv"] Fmt.csv lw,
          FsEffect.writeFile ["data", toString D.year,
            "cot_disagg_fut_latest_" ++ toString D.year ++ ".parquet"]
            Fmt.parquet lw] :=
  claim_C6_writer_outputs "data" 0 2024 archSample rcSample tdSample
    effsSample (by rfl)

/-- C10: on every successful run the trace is one directory creation and
four writes carrying one and the same table — the date-stamped file and
the "latest" file of each format are written from the single filtered
subset with no transformation between the writes. -/
theorem claim_C10_identical_contents (outDir : String) (yearsBack : Nat)
    (nyYear : Int) (archives : Int → ZipArchive)
    (read_csv : List Nat → Table) (toDate : String → Option Date)
    (effs : List FsEffect)
    (h : mainRun outDir yearsBack nyYear archives read_csv toDate =
      (effs, Except.ok ())) :
    ∃ (dirp p1 p2 p3 p4 : List String) (lw : Table),
      effs =
        [FsEffect.mkdirP dirp,
          FsEffect.writeFile p1 Fmt.csv lw,
          FsEffect.writeFile p2 Fmt.parquet lw,
          FsEffect.writeFile p3 Fmt.csv lw,
          FsEffect.writeFile p4 Fmt.parquet lw] := by
  rcases mainRun_ok_shape outDir yearsBack nyYear archives read_csv toDate
    effs h with ⟨frames, date_col, latest, h1, h2, h3, h4⟩
  rw [h4, writerEffects_eq]
  exact ⟨_, _, _, _, _, _, rfl⟩

/-- Closed instance of the C10 theorem on the sample run. -/
theorem claim_C10_witness :
    ∃ (dirp p1 p2 p3 p4 : List String) (lw : Table),
      effsSample =
        [FsEffect.mkdirP dirp,
          FsEffect.writeFile p1 Fmt.csv lw,
          FsEffect.writeFile p2 Fmt.parquet lw,
          FsEffect.writeFile p3 Fmt.csv lw,
          FsEffect.writeFile p4 Fmt.parquet lw] :=
  claim_C10_identical_contents "data" 0 2024 archSample rcSample tdSample
    effsSample (by rfl)

theorem rangeDown_length (n : Nat) : (rangeDown n).length = n + 1 := by
  induction n with
  | zero => rfl
  | succ m ih => simp [rangeDown, ih]

theorem rangeDown_getElem (n : Nat) :
    ∀ (i : Nat) (h : i < (rangeDown n).length), (rangeDown n)[i] = n - i := by
  induction n with
  | zero =>
    intro i h
    rw [rangeDown_length] at h
    interval_cases i
    rfl
  | succ m ih =>
    intro i h
    cases i with
    | zero => rfl
    | succ j =>
      have hj : j < (rangeDown m).length := by
        rw [rangeDown_length]
        rw [rangeDown_length] at h
        omega
      show (rangeDown m)[j] = m + 1 - (j + 1)
      rw [ih j hj]
      omega

theorem yearsList_eq_range_map (y : Int) (n : Nat) :
    yearsList y n =
      (List.range (n + 1)).map (fun i : Nat => y - (n : Int) + (i : Int)) := by
  unfold yearsList
  refine List.ext_getElem (by simp [rangeDown_length]) ?_
  intro i h1 h2
  have hi : i < n + 1 := by
    simpa [rangeDown_length] using h1
  have hr : i < (rangeDown n).length := by
    rw [rangeDown_length]; exact hi
  rw [List.getElem_map, List.getElem_map, rangeDown_getElem n i hr,
    List.getElem_range]
  have hcast : (Int.ofNat (n - i)) = (n : Int) - i := by
    rw [Int.ofNat_eq_coe]
    omega
  rw [hcast]
  ring

theorem indexOf?_getElem_of_nodup {cs : List String} (hnd : cs.Nodup) :
    ∀ (i : Nat) (hi : i < cs.length), List.indexOf? (cs[i]) cs = some i := by
  induction cs with
  | nil => intro i hi; simp at hi
  | cons a t ih =>
    intro i hi
    cases i with
    | zero =>
      simp [List.indexOf?_cons]
    | succ j =>
      have hj : j < t.length := by simpa using hi
      have hne : a ≠ t[j] := by
        intro heq
        exact (List.nodup_cons.mp hnd).1 (heq ▸ List.getElem_mem hj)
      simp only [List.getElem_cons_succ]
      rw [List.indexOf?_cons, if_neg (by simp [hne]),
        ih (List.Nodup.of_cons hnd) j hj]
      rfl

theorem reindexRow_self {c : List String} {row : Row} (hnd : c.Nodup)
    (hlen : row.length = c.length) : reindexRow c c row = row := by
  unfold reindexRow
  refine List.ext_getElem (by simp [hlen]) ?_
  intro i h1 h2
  have hic : i < c.length := by simpa using h1
  rw [List.getElem_map, indexOf?_getElem_of_nodup hnd i hic]
  show row.getD i none = row[i]
  exact List.getD_eq_getElem row none (by omega)

theorem dedupColsAux_cons (seen : List String) (a : String)
    (t : List String) :
    dedupColsAux seen (a :: t) =
      if a ∈ seen then dedupColsAux seen t
      else a :: dedupColsAux (a :: seen) t := rfl

theorem dedupColsAux_of_subset :
    ∀ (l seen : List String), (∀ x ∈ l, x ∈ seen) →
      dedupColsAux seen l = [] := by
  intro l
  induction l with
  | nil => intro seen _; rfl
  | cons a t ih =>
    intro seen h
    rw [dedupColsAux_cons, if_pos (h a (by simp))]
    exact ih seen (fun x hx => h x (by simp [hx]))

theorem dedupColsAux_prefix :
    ∀ (c seen r : List String), c.Nodup → (∀ x ∈ c, x ∉ seen) →
      ∃ s2, dedupColsAux seen (c ++ r) = c ++ dedupColsAux s2 r ∧
        (∀ x, x ∈ s2 ↔ x ∈ c ∨ x ∈ seen) := by
  intro c
  induction c with
  | nil =>
    intro seen r _ _
    exact ⟨seen, rfl, by simp⟩
  | cons a t ih =>
    intro seen r hnd hnotin
    have ha : a ∉ seen := hnotin a (by simp)
    have hsub : ∀ x ∈ t, x ∉ (a :: seen) := by
      intro x hx
      simp only [List.mem_cons]
      rintro (rfl | hxs)
      · exact (List.nodup_cons.mp hnd).1 hx
      · exact hnotin x (by simp [hx]) hxs
    rcases ih (a :: seen) r (List.Nodup.of_cons hnd) hsub with ⟨s2, h1, h2⟩
    refine ⟨s2, ?_, ?_⟩
    · show dedupColsAux seen (a :: (t ++ r)) = a :: (t ++ dedupColsAux s2 r)
      rw [dedupColsAux_cons, if_neg ha, h1]
    · intro x
      rw [h2 x]
      simp only [List.mem_cons]
      tauto

theorem unionCols_const {c : List String} (hnd : c.Nodup) :
    ∀ (frames : List Table), frames ≠ [] → (∀ f ∈ frames, f.cols = c) →
      unionCols frames = c := by
  intro frames hne hcols
  cases frames with
  | nil => exact absurd rfl hne
  | cons f0 rest =>
    unfold unionCols
    rw [List.flatMap_cons, hcols f0 (by simp)]
    rcases dedupColsAux_prefix c [] (rest.flatMap Table.cols) hnd (by simp)
      with ⟨s2, h1, h2⟩
    rw [h1]
    have hrest : dedupColsAux s2 (rest.flatMap Table.cols) = [] := by
      apply dedupColsAux_of_subset
      intro x hx
      rcases List.mem_flatMap.mp hx with ⟨f, hf, hxf⟩
      rw [hcols f (by simp [hf])] at hxf
      exact (h2 x).mpr (Or.inl hxf)
    rw [hrest]
    simp

theorem concatTables_rows_const {c : List String} (hnd : c.Nodup)
    (frames : List Table) (hne : frames ≠ [])
    (hcols : ∀ f ∈ frames, f.cols = c)
    (hlen : ∀ f ∈ frames, ∀ r ∈ f.rows, r.length = c.length) :
    (concatTables frames).rows = (frames.map Table.rows).flatten := by
  show (frames.map
    (fun f => f.rows.map (reindexRow f.cols (unionCols frames)))).flatten =
    (frames.map Table.rows).flatten
  rw [unionCols_const hnd frames hne hcols]
  congr 1
  apply List.map_congr_left
  intro f hf
  rw [hcols f hf]
  have : ∀ r ∈ f.rows, reindexRow c c r = r :=
    fun r hr => reindexRow_self hnd (hlen f hf r hr)
  rw [List.map_congr_left this]
  simp

/-- C8: with `YEARS_BACK = N` and New York year `Y`, the fetched year
list is exactly `Y−N .. Y`, each year once, in ascending order (`N = 0`
gives the current year only), and the per-year tables are concatenated in
that same ascending order before selection. -/
theorem claim_C8_year_selection (y : Int) (n : Nat) :
    yearsList y n =
      (List.range (n + 1)).map (fun i : Nat => y - (n : Int) + (i : Int)) ∧
    List.Chain' (fun a b => a < b) (yearsList y n) ∧
    (yearsList y n).Nodup ∧
    (∀ z : Int, z ∈ yearsList y n ↔ y - n ≤ z ∧ z ≤ y) ∧
    yearsList y 0 = [y] ∧
    (∀ (f : Int → Table) (c : List String), c.Nodup →
      (∀ z, (f z).cols = c) →
      (∀ z, ∀ r ∈ (f z).rows, r.length = c.length) →
      (concatTables ((yearsList y n).map f)).rows =
        ((yearsList y n).map (fun z => (f z).rows)).flatten) := by
  have hpair : List.Pairwise (fun a b => a < b) (yearsList y n) := by
    rw [yearsList_eq_range_map]
    exact List.Pairwise.map _ (fun a b hab => by omega)
      (List.pairwise_lt_range (n + 1))
  refine ⟨yearsList_eq_range_map y n, hpair.chain', ?_, ?_, ?_, ?_⟩
  · exact hpair.imp (fun hab => by omega)
  · intro z
    rw [yearsList_eq_range_map]
    simp only [List.mem_map, List.mem_range]
    constructor
    · rintro ⟨i, hi, rfl⟩
      omega
    · intro hz
      obtain ⟨hz1, hz2⟩ := hz
      refine ⟨(z - (y - n)).toNat, by omega, by omega⟩
  · simp [yearsList, rangeDown]
  · intro f c hnd hcols hlen
    have hne : (yearsList y n).map f ≠ [] := by
      apply List.ne_nil_of_length_pos
      simp [yearsList, rangeDown_length]
    rw [concatTables_rows_const hnd ((yearsList y n).map f) hne
      (by intro fr hfr
          rcases List.mem_map.mp hfr with ⟨z, _, rfl⟩
          exact hcols z)
      (by intro fr hfr r hr
          rcases List.mem_map.mp hfr with ⟨z, _, rfl⟩
          exact hlen z r hr)]
    rw [List.map_map]
    rfl

/-- Closed instance of the C8 theorem: a two-frame run over identical
schemas stacks the rows in ascending year order. -/
theorem claim_C8_witness :
    (concatTables ((yearsList 2024 1).map (fun _ => tblSample))).rows =
      ((yearsList 2024 1).map (fun _ => tblSample.rows)).flatten :=
  (claim_C8_year_selection 2024 1).2.2.2.2.2 (fun _ => tblSample)
    ["Report_Date_as_YYYY-MM-DD", "v"] (by decide) (fun _ => rfl)
    (fun _ r hr => by
      rcases List.mem_cons.mp hr with h | h
      · subst h; rfl
      · rcases List.mem_cons.mp h with h2 | h2
        · subst h2; rfl
        · simp at h2)

end CotFetch
